import Mathlib

/-!
Bounded request buffer of `src/request.c`

A shallow embedding of the request buffer (`buffer_init`, `buffer_insert`,
`buffer_remove`) and proofs about its sequential behaviour.

Modelling conventions.

* The C `int` fields `start`, `end`, `count`, the loop counters and the global
  `buffer_max_size` are natural numbers: along every run considered here they
  stay in `[0, 2 * buffer_max_size)`, so no machine overflow is involved as long
  as `2 * buffer_max_size` fits in an `int`.  On non-negative operands the C
  operator `%` is `Nat`'s `%`.  The one subtraction of the code,
  `(buffer.end - 1 + buffer_max_size) % buffer_max_size`, is written
  `(end_ + buffer_max_size - 1) % buffer_max_size`; `end_decrement_int` shows
  that this is the value the C expression has on integers.
* `buffer.requests` is a pointer to a `malloc`ed block: it is a map from slot
  numbers to items.  `malloc` does not initialise the block, so `buffer_init`
  takes the block's initial content as an argument.
* `fd` and `filesize` are integers (they are only copied and compared),
  `filename` is a string, which `strcpy` copies as a whole.  That is what the
  code does for a name of fewer than `MAXBUF` bytes; a longer one overruns the
  destination array, which is outside this model, so reachable states are built
  from names that fit and the statements about a submitted name assume it fits.
* The mutex and the condition variables are not modelled.  A call whose wait
  loop cannot exit in the current state yields `none`: in a sequential run
  nobody can wake the caller.
* `scheduling_algo` and the value returned by `rand()` are arguments.
-/

set_option linter.unusedVariables false

namespace Request

/-- Size of the `filename` array of a request: `#define MAXBUF (8192)`. -/
def MAXBUF : Nat := 8192

/-- One queued request: `request_t`. -/
structure request_t where
  fd : Int
  filename : String
  filesize : Int
deriving DecidableEq, Repr, Inhabited

/-- The shared buffer `request_buffer_t` (the field `end` is called `end_`;
lock and condition variables are left out). -/
structure request_buffer_t where
  requests : Nat → request_t
  start : Nat
  end_ : Nat
  count : Nat

/-- The assignment `requests[i] = v`. -/
def store (requests : Nat → request_t) (i : Nat) (v : request_t) : Nat → request_t :=
  fun j => if j = i then v else requests j

/-- `buffer_init(size)`: a fresh block (with arbitrary content `heap`) and all
three counters zero. -/
def buffer_init (size : Nat) (heap : Nat → request_t) : request_buffer_t :=
  { requests := heap, start := 0, end_ := 0, count := 0 }

/-- `buffer_insert(fd, filename, filesize)`.  `none`: the caller stays in the
wait loop `while (buffer.count == buffer_max_size)`.  The arguments are stored
as they come: the function has no check of `filesize` or of the name. -/
def buffer_insert (buffer_max_size : Nat) (buffer : request_buffer_t)
    (fd : Int) (filename : String) (filesize : Int) : Option request_buffer_t :=
  if buffer.count = buffer_max_size then none
  else
    some
      { requests := store buffer.requests buffer.end_ ⟨fd, filename, filesize⟩
        start := buffer.start
        end_ := (buffer.end_ + 1) % buffer_max_size
        count := buffer.count + 1 }

/-- The SFF scan of `buffer_remove`:
`for (i = 1; i < count; ++i) { idx = (start + i) % max; if (requests[idx].filesize
< requests[index].filesize) index = idx; }` starting from `index = start`. -/
def sff_scan (buffer_max_size : Nat) (buffer : request_buffer_t) : Nat :=
  (List.range' 1 (buffer.count - 1)).foldl
    (fun index i =>
      let idx := (buffer.start + i) % buffer_max_size
      if (buffer.requests idx).filesize < (buffer.requests index).filesize then idx
      else index)
    buffer.start

/-- The slot `index` chosen by `buffer_remove`: the SFF scan when
`scheduling_algo == 1`, `(start + rand() % count) % max` when it is `2`, and
`start` otherwise. -/
def select_index (buffer_max_size : Nat) (scheduling_algo : Int) (rand : Nat)
    (buffer : request_buffer_t) : Nat :=
  if scheduling_algo = 1 then sff_scan buffer_max_size buffer
  else if scheduling_algo = 2 then
    (buffer.start + rand % buffer.count) % buffer_max_size
  else buffer.start

/-- The shifting loop of `buffer_remove`:
`for (i = index; i != end; i = (i + 1) % max) requests[i] = requests[(i + 1) % max];`.
The first argument bounds the number of iterations; `none` means the bound was
reached before `i == end`. -/
def shift_loop (buffer_max_size end_ : Nat) :
    Nat → Nat → (Nat → request_t) → Option (Nat → request_t)
  | 0, i, requests => if i = end_ then some requests else none
  | fuel + 1, i, requests =>
    if i = end_ then some requests
    else
      let next := (i + 1) % buffer_max_size
      shift_loop buffer_max_size end_ fuel ((i + 1) % buffer_max_size)
        (store requests i (requests next))

/-- `buffer_remove()`: the returned request and the new buffer.  `none`: the
caller stays in the wait loop `while (buffer.count == 0)`, or the shifting loop
does not reach `end` (it visits at most `buffer_max_size` distinct slots after
its first step, so `buffer_max_size + 1` iterations decide that). -/
def buffer_remove (buffer_max_size : Nat) (scheduling_algo : Int) (rand : Nat)
    (buffer : request_buffer_t) : Option (request_t × request_buffer_t) :=
  if buffer.count = 0 then none
  else
    let index := select_index buffer_max_size scheduling_algo rand buffer
    let req := buffer.requests index
    match shift_loop buffer_max_size buffer.end_ (buffer_max_size + 1) index
        buffer.requests with
    | none => none
    | some requests =>
      some
        (req,
          { requests := requests
            start := buffer.start
            end_ := (buffer.end_ + buffer_max_size - 1) % buffer_max_size
            count := buffer.count - 1 })

/-- The logical contents of the buffer: `requests[(start + k) % max]` for
`k = 0 .. count - 1`. -/
def contents (buffer_max_size : Nat) (buffer : request_buffer_t) : List request_t :=
  (List.range buffer.count).map
    (fun k => buffer.requests ((buffer.start + k) % buffer_max_size))

/-- Successive `buffer_insert` calls, one per item of the list. -/
def insert_all (buffer_max_size : Nat) :
    request_buffer_t → List request_t → Option request_buffer_t
  | buffer, [] => some buffer
  | buffer, r :: rs =>
    match buffer_insert buffer_max_size buffer r.fd r.filename r.filesize with
    | none => none
    | some buffer1 => insert_all buffer_max_size buffer1 rs

/-- Successive `buffer_remove` calls, one per element of `rands` (the value
`rand()` returns in that call); the requests returned, in order, and the final
buffer. -/
def remove_all (buffer_max_size : Nat) (scheduling_algo : Int) :
    request_buffer_t → List Nat → Option (List request_t × request_buffer_t)
  | buffer, [] => some ([], buffer)
  | buffer, r :: rs =>
    match buffer_remove buffer_max_size scheduling_algo r buffer with
    | none => none
    | some (req, buffer1) =>
      match remove_all buffer_max_size scheduling_algo buffer1 rs with
      | none => none
      | some (reqs, buffer2) => some (req :: reqs, buffer2)

/-- Submit the items to a fresh buffer, then take `rands.length` times. -/
def submit_then_drain (buffer_max_size : Nat) (scheduling_algo : Int)
    (heap : Nat → request_t) (items : List request_t) (rands : List Nat) :
    Option (List request_t × request_buffer_t) :=
  match insert_all buffer_max_size (buffer_init buffer_max_size heap) items with
  | none => none
  | some buffer => remove_all buffer_max_size scheduling_algo buffer rands

/-- The states the buffer can be in: the one `buffer_init` builds, and those
obtained by a `buffer_insert` call (with a name that fits the `filename` array)
or a `buffer_remove` call that returns (under any policy and any value of
`rand()`). -/
inductive Reachable (buffer_max_size : Nat) : request_buffer_t → Prop
  | init (heap : Nat → request_t) :
      Reachable buffer_max_size (buffer_init buffer_max_size heap)
  | insert {b b1 : request_buffer_t} (fd : Int) (filename : String) (filesize : Int) :
      filename.utf8ByteSize < MAXBUF →
      Reachable buffer_max_size b →
      buffer_insert buffer_max_size b fd filename filesize = some b1 →
      Reachable buffer_max_size b1
  | remove {b b1 : request_buffer_t} {req : request_t} (scheduling_algo : Int)
      (rand : Nat) :
      Reachable buffer_max_size b →
      buffer_remove buffer_max_size scheduling_algo rand b = some (req, b1) →
      Reachable buffer_max_size b1

/-- Sample items used in the concrete runs. -/
def itemA : request_t := ⟨3, "./a.html", 10⟩

/-- Second sample item. -/
def itemB : request_t := ⟨4, "./b.html", 20⟩

/-- Third sample item. -/
def itemC : request_t := ⟨5, "./c.html", 30⟩

/-- Block content before any write. -/
def heap0 : Nat → request_t := fun _ => ⟨0, "", 0⟩

/-- In every state the code reaches, `start` is still `0` (no statement writes
it), `count` is at most the capacity and `end` is `count` modulo the capacity. -/
def Inv (cap : Nat) (b : request_buffer_t) : Prop :=
  b.start = 0 ∧ b.count ≤ cap ∧ b.end_ = b.count % cap

/-- A full buffer of capacity three holding `itemA`, `itemB`, `itemC`. -/
def full3 : request_buffer_t :=
  { requests := store (store (store heap0 0 itemA) 1 itemB) 2 itemC
    start := 0
    end_ := 0
    count := 3 }

/-- A buffer of capacity three holding `itemA`, `itemB`. -/
def part3 : request_buffer_t :=
  { requests := store (store heap0 0 itemA) 1 itemB
    start := 0
    end_ := 2
    count := 2 }

/-! ## Unfolding the two operations -/

theorem buffer_insert_some {cap : Nat} {b b1 : request_buffer_t} {fd : Int}
    {filename : String} {filesize : Int}
    (h : buffer_insert cap b fd filename filesize = some b1) :
    b.count ≠ cap ∧
      b1 = { requests := store b.requests b.end_ ⟨fd, filename, filesize⟩
             start := b.start
             end_ := (b.end_ + 1) % cap
             count := b.count + 1 } := by
  unfold buffer_insert at h
  split at h
  · simp at h
  · rename_i hne
    simp only [Option.some.injEq] at h
    exact ⟨hne, h.symm⟩

theorem buffer_insert_of_ne {cap : Nat} {b : request_buffer_t} (hne : b.count ≠ cap)
    (fd : Int) (filename : String) (filesize : Int) :
    buffer_insert cap b fd filename filesize =
      some { requests := store b.requests b.end_ ⟨fd, filename, filesize⟩
             start := b.start
             end_ := (b.end_ + 1) % cap
             count := b.count + 1 } := by
  unfold buffer_insert
  rw [if_neg hne]

theorem buffer_remove_some {cap : Nat} {algo : Int} {rand : Nat}
    {b b1 : request_buffer_t} {req : request_t}
    (h : buffer_remove cap algo rand b = some (req, b1)) :
    b.count ≠ 0 ∧ req = b.requests (select_index cap algo rand b) ∧
      shift_loop cap b.end_ (cap + 1) (select_index cap algo rand b) b.requests
        = some b1.requests ∧
      b1.start = b.start ∧ b1.end_ = (b.end_ + cap - 1) % cap ∧
      b1.count = b.count - 1 := by
  unfold buffer_remove at h
  split at h
  · simp at h
  · rename_i hne
    simp only at h
    split at h
    · simp at h
    · rename_i requests hs
      simp only [Option.some.injEq, Prod.mk.injEq] at h
      obtain ⟨h1, h2⟩ := h
      subst h2
      exact ⟨hne, h1.symm, hs, rfl, rfl, rfl⟩

theorem buffer_remove_of_shift {cap : Nat} {algo : Int} {rand : Nat}
    {b : request_buffer_t} {requests : Nat → request_t} (hne : b.count ≠ 0)
    (hs : shift_loop cap b.end_ (cap + 1) (select_index cap algo rand b) b.requests
        = some requests) :
    buffer_remove cap algo rand b =
      some (b.requests (select_index cap algo rand b),
        { requests := requests
          start := b.start
          end_ := (b.end_ + cap - 1) % cap
          count := b.count - 1 }) := by
  unfold buffer_remove
  rw [if_neg hne]
  simp only [hs]

/-! ## The shape of reachable states -/

theorem inv_init (cap : Nat) (heap : Nat → request_t) : Inv cap (buffer_init cap heap) := by
  simp [Inv, buffer_init]

theorem inv_insert {cap : Nat} {b b1 : request_buffer_t} {fd : Int}
    {filename : String} {filesize : Int} (hi : Inv cap b)
    (h : buffer_insert cap b fd filename filesize = some b1) : Inv cap b1 := by
  obtain ⟨hne, rfl⟩ := buffer_insert_some h
  obtain ⟨h0, hc, he⟩ := hi
  have hlt : b.count < cap := lt_of_le_of_ne hc hne
  refine ⟨h0, hlt, ?_⟩
  show (b.end_ + 1) % cap = (b.count + 1) % cap
  rw [he, Nat.mod_eq_of_lt hlt]

theorem end_decrement {cap count : Nat} (hc : count ≤ cap) (hne : count ≠ 0) :
    (count % cap + cap - 1) % cap = (count - 1) % cap := by
  rcases Nat.lt_or_ge count cap with hlt | hge
  · rw [Nat.mod_eq_of_lt hlt]
    have : count + cap - 1 = (count - 1) + cap := by omega
    rw [this, Nat.add_mod_right]
  · have : count = cap := le_antisymm hc hge
    subst this
    simp

theorem inv_remove {cap : Nat} {algo : Int} {rand : Nat} {b b1 : request_buffer_t}
    {req : request_t} (hi : Inv cap b)
    (h : buffer_remove cap algo rand b = some (req, b1)) : Inv cap b1 := by
  obtain ⟨hne, -, -, hs, he, hcnt⟩ := buffer_remove_some h
  obtain ⟨h0, hc, hend⟩ := hi
  refine ⟨by rw [hs, h0], by omega, ?_⟩
  rw [he, hcnt, hend]
  exact end_decrement hc hne

theorem reachable_inv {cap : Nat} {b : request_buffer_t} (h : Reachable cap b) :
    Inv cap b := by
  induction h with
  | init heap => exact inv_init cap heap
  | insert fd filename filesize _ _ hstep ih => exact inv_insert ih hstep
  | remove algo rand _ hstep ih => exact inv_remove ih hstep

/-- On integers, with C's truncating `%`, `(end - 1 + max) % max` is the value
used in `buffer_remove` above. -/
theorem end_decrement_int (e cap : Nat) (hcap : 0 < cap) :
    Int.tmod ((e : Int) - 1 + (cap : Int)) (cap : Int) = (((e + cap - 1) % cap : Nat) : Int) := by
  have h1 : ((e : Int) - 1 + (cap : Int)) = ((e + cap - 1 : Nat) : Int) := by omega
  rw [h1]
  norm_cast

/-! ## The shifting loop -/

/-- Shifting from `i` up to `e` without wrapping: every slot in `[i, e)` receives
its right neighbour. -/
theorem shift_loop_up (cap e : Nat) (he : e < cap) :
    ∀ (n fuel i : Nat) (requests : Nat → request_t), i + n = e → n ≤ fuel →
      shift_loop cap e fuel i requests =
        some (fun j => if i ≤ j ∧ j < e then requests (j + 1) else requests j) := by
  intro n
  induction n with
  | zero =>
    intro fuel i requests hie _
    have hie1 : i = e := by omega
    have hfun : (fun j => if i ≤ j ∧ j < e then requests (j + 1) else requests j)
        = requests := by
      funext j
      have : ¬ (i ≤ j ∧ j < e) := by omega
      simp [this]
    rw [hfun]
    cases fuel <;> simp [shift_loop, hie1]
  | succ n ih =>
    intro fuel i requests hie hfuel
    obtain ⟨f, rfl⟩ : ∃ f, fuel = f + 1 := ⟨fuel - 1, by omega⟩
    have hne : i ≠ e := by omega
    have hmod : (i + 1) % cap = i + 1 := Nat.mod_eq_of_lt (by omega)
    simp only [shift_loop, if_neg hne, hmod]
    rw [ih f (i + 1) _ (by omega) (by omega)]
    congr 1
    funext j
    simp only [store]
    by_cases h1 : i + 1 ≤ j ∧ j < e
    · have h2 : i ≤ j ∧ j < e := by omega
      have h3 : j + 1 ≠ i := by omega
      simp [h1, h2, h3]
    · by_cases h4 : j = i
      · subst h4
        have h2 : j ≤ j ∧ j < e := by omega
        simp [h1, h2]
      · have h2 : ¬ (i ≤ j ∧ j < e) := by omega
        simp [h1, h2, h4]

/-- Shifting from `i > 0` in a full buffer (`end == 0`): every slot in
`[i, cap)` receives its cyclic right neighbour, the last one a copy of slot 0. -/
theorem shift_loop_wrap (cap : Nat) :
    ∀ (n fuel i : Nat) (requests : Nat → request_t), 0 < i → i + n + 1 = cap →
      n + 1 ≤ fuel →
      shift_loop cap 0 fuel i requests =
        some (fun j => if i ≤ j ∧ j < cap then requests ((j + 1) % cap) else requests j) := by
  intro n
  induction n with
  | zero =>
    intro fuel i requests hi hie hfuel
    obtain ⟨f, rfl⟩ : ∃ f, fuel = f + 1 := ⟨fuel - 1, by omega⟩
    have hne : i ≠ 0 := by omega
    have hcap : i + 1 = cap := by omega
    have hmod : (i + 1) % cap = 0 := by rw [hcap, Nat.mod_self]
    simp only [shift_loop, if_neg hne, hmod]
    have hstop : shift_loop cap 0 f 0 (store requests i (requests 0))
        = some (store requests i (requests 0)) := by
      cases f <;> simp [shift_loop]
    rw [hstop]
    congr 1
    funext j
    simp only [store]
    by_cases h4 : j = i
    · subst h4
      have h2 : j ≤ j ∧ j < cap := by omega
      simp [h2, hmod]
    · have h2 : ¬ (i ≤ j ∧ j < cap) := by omega
      simp [h2, h4]
  | succ n ih =>
    intro fuel i requests hi hie hfuel
    obtain ⟨f, rfl⟩ : ∃ f, fuel = f + 1 := ⟨fuel - 1, by omega⟩
    have hne : i ≠ 0 := by omega
    have hmod : (i + 1) % cap = i + 1 := Nat.mod_eq_of_lt (by omega)
    simp only [shift_loop, if_neg hne, hmod]
    rw [ih f (i + 1) _ (by omega) (by omega) (by omega)]
    congr 1
    funext j
    simp only [store]
    by_cases h1 : i + 1 ≤ j ∧ j < cap
    · have h2 : i ≤ j ∧ j < cap := by omega
      have h3 : (j + 1) % cap ≠ i := by
        rcases Nat.lt_or_ge (j + 1) cap with h | h
        · rw [Nat.mod_eq_of_lt h]; omega
        · have : j + 1 = cap := by omega
          rw [this, Nat.mod_self]; omega
      simp [h1, h2, h3]
    · by_cases h4 : j = i
      · subst h4
        have h2 : j ≤ j ∧ j < cap := by omega
        simp [h1, h2, hmod]
      · have h2 : ¬ (i ≤ j ∧ j < cap) := by omega
        simp [h1, h2, h4]

/-! ## Logical contents -/

theorem contents_length (cap : Nat) (b : request_buffer_t) :
    (contents cap b).length = b.count := by
  simp [contents]

/-- With `start == 0` and `count <= max` the logical contents are the first
`count` slots. -/
theorem contents_eq_slots {cap : Nat} {b : request_buffer_t} (hi : Inv cap b) :
    contents cap b = (List.range b.count).map b.requests := by
  obtain ⟨h0, hc, -⟩ := hi
  unfold contents
  apply List.map_congr_left
  intro k hk
  have hk1 : k < b.count := List.mem_range.mp hk
  rw [h0, Nat.zero_add, Nat.mod_eq_of_lt (by omega)]

theorem contents_getElem {cap : Nat} {b : request_buffer_t} (hi : Inv cap b)
    (k : Nat) (hk : k < (contents cap b).length) :
    (contents cap b)[k] = b.requests k := by
  simp [contents_eq_slots hi]

/-- Erasing position `idx` from the first `n` slots. -/
theorem eraseIdx_slots (f : Nat → request_t) (n idx : Nat) (hidx : idx < n) :
    ((List.range n).map f).eraseIdx idx =
      (List.range (n - 1)).map (fun k => if idx ≤ k then f (k + 1) else f k) := by
  apply List.ext_getElem
  · rw [List.length_eraseIdx_of_lt (by simpa using hidx)]
    simp
  · intro k h1 h2
    rw [List.getElem_eraseIdx]
    by_cases hk : k < idx
    · have hk2 : ¬ idx ≤ k := by omega
      simp [hk, hk2]
    · have hk2 : idx ≤ k := by omega
      simp [hk, hk2]

/-! ## The selected slot -/

/-- The SFF scan over the first `n + 1` slots ends on the first slot of minimal
`filesize`. -/
theorem sff_fold_spec (cap : Nat) {b : request_buffer_t} (h0 : b.start = 0) :
    ∀ n : Nat, n + 1 ≤ cap →
      ∃ j, (List.range' 1 n).foldl
          (fun index i =>
            let idx := (b.start + i) % cap
            if (b.requests idx).filesize < (b.requests index).filesize then idx
            else index)
          b.start = j ∧ j ≤ n ∧
        (∀ k, k ≤ n → (b.requests j).filesize ≤ (b.requests k).filesize) ∧
        (∀ k, k < j → (b.requests j).filesize < (b.requests k).filesize) := by
  intro n
  induction n with
  | zero =>
    intro _
    refine ⟨0, by simp [h0], le_refl 0, ?_, ?_⟩
    · intro k hk
      have : k = 0 := by omega
      subst this
      exact le_refl _
    · intro k hk
      omega
  | succ n ih =>
    intro hcap
    obtain ⟨j, hj, hjn, hmin, hfirst⟩ := ih (by omega)
    have hmod : (b.start + (1 + n)) % cap = n + 1 := by
      rw [h0, Nat.zero_add, Nat.add_comm 1 n]
      exact Nat.mod_eq_of_lt (by omega)
    rw [List.range'_1_concat, List.foldl_append, hj]
    simp only [List.foldl_cons, List.foldl_nil, hmod]
    by_cases hlt : (b.requests (n + 1)).filesize < (b.requests j).filesize
    · refine ⟨n + 1, by rw [if_pos hlt], le_refl _, ?_, ?_⟩
      · intro k hk
        rcases Nat.lt_or_ge k (n + 1) with h | h
        · exact le_of_lt (lt_of_lt_of_le hlt (hmin k (by omega)))
        · have : k = n + 1 := by omega
          subst this
          exact le_refl _
      · intro k hk
        exact lt_of_lt_of_le hlt (hmin k (by omega))
    · refine ⟨j, by rw [if_neg hlt], by omega, ?_, hfirst⟩
      intro k hk
      rcases Nat.lt_or_ge k (n + 1) with h | h
      · exact hmin k (by omega)
      · have : k = n + 1 := by omega
        subst this
        exact not_lt.mp hlt

theorem sff_scan_spec {cap : Nat} {b : request_buffer_t} (hi : Inv cap b)
    (hne : b.count ≠ 0) :
    sff_scan cap b < b.count ∧
      (∀ k, k < b.count →
        (b.requests (sff_scan cap b)).filesize ≤ (b.requests k).filesize) ∧
      (∀ k, k < sff_scan cap b →
        (b.requests (sff_scan cap b)).filesize < (b.requests k).filesize) := by
  obtain ⟨h0, hc, -⟩ := hi
  obtain ⟨j, hj, hjn, hmin, hfirst⟩ := sff_fold_spec cap h0 (b.count - 1) (by omega)
  have hs : sff_scan cap b = j := hj
  rw [hs]
  exact ⟨by omega, fun k hk => hmin k (by omega), hfirst⟩

theorem random_index_eq {cap : Nat} {b : request_buffer_t} (hi : Inv cap b)
    (hne : b.count ≠ 0) (r : Nat) :
    (b.start + r % b.count) % cap = r % b.count := by
  obtain ⟨h0, hc, -⟩ := hi
  have hlt : r % b.count < b.count := Nat.mod_lt _ (Nat.pos_of_ne_zero hne)
  rw [h0, Nat.zero_add]
  exact Nat.mod_eq_of_lt (by omega)

/-- Under every policy the selected slot holds a queued item. -/
theorem select_index_lt {cap : Nat} {b : request_buffer_t} (hi : Inv cap b)
    (hne : b.count ≠ 0) (algo : Int) (rand : Nat) :
    select_index cap algo rand b < b.count := by
  unfold select_index
  split
  · exact (sff_scan_spec hi hne).1
  · split
    · rw [random_index_eq hi hne]
      exact Nat.mod_lt _ (Nat.pos_of_ne_zero hne)
    · rw [hi.1]
      exact Nat.pos_of_ne_zero hne

/-! ## What one `buffer_remove` does -/

/-- The shifting loop ends from every selected slot of a well-shaped buffer;
unless the slot is the head of a full buffer of capacity at least two, the first
`count - 1` slots afterwards are the old ones with slot `idx` erased. -/
theorem shift_loop_spec {cap : Nat} {b : request_buffer_t} (hi : Inv cap b)
    {idx : Nat} (hidx : idx < b.count) :
    ∃ requests, shift_loop cap b.end_ (cap + 1) idx b.requests = some requests ∧
      ((idx ≠ 0 ∨ b.count < cap ∨ cap = 1) →
        ∀ k, k < b.count - 1 →
          requests k = if idx ≤ k then b.requests (k + 1) else b.requests k) ∧
      (idx = 0 → b.count = cap → requests = b.requests) := by
  obtain ⟨h0, hc, he⟩ := hi
  rcases Nat.lt_or_ge b.count cap with hlt | hge
  · have hend : b.end_ = b.count := by rw [he, Nat.mod_eq_of_lt hlt]
    rw [hend]
    refine ⟨_, shift_loop_up cap b.count hlt (b.count - idx) (cap + 1) idx b.requests
      (by omega) (by omega), ?_, ?_⟩
    · intro _ k hk
      by_cases h1 : idx ≤ k
      · have h2 : idx ≤ k ∧ k < b.count := by omega
        simp [h1, h2]
      · have h2 : ¬ (idx ≤ k ∧ k < b.count) := by omega
        simp [h1, h2]
    · intro _ hfull
      omega
  · have hfull : b.count = cap := le_antisymm hc hge
    have hend : b.end_ = 0 := by rw [he, hfull, Nat.mod_self]
    rw [hend]
    rcases Nat.eq_zero_or_pos idx with hz | hpos
    · subst hz
      refine ⟨b.requests, by simp [shift_loop], ?_, fun _ _ => rfl⟩
      intro hgood k hk
      omega
    · refine ⟨_, shift_loop_wrap cap (cap - idx - 1) (cap + 1) idx b.requests hpos
        (by omega) (by omega), ?_, ?_⟩
      · intro _ k hk
        have hmod : (k + 1) % cap = k + 1 := Nat.mod_eq_of_lt (by omega)
        by_cases h1 : idx ≤ k
        · have h2 : idx ≤ k ∧ k < cap := by omega
          simp [h1, h2, hmod]
        · have h2 : ¬ (idx ≤ k ∧ k < cap) := by omega
          simp [h1, h2]
      · intro hz
        omega

/-- Step lemma: `buffer_remove` returns in every well-shaped non-empty buffer,
with the item of the selected slot. -/
theorem buffer_remove_returns {cap : Nat} {b : request_buffer_t} (hi : Inv cap b)
    (hne : b.count ≠ 0) (algo : Int) (rand : Nat) :
    ∃ b1, buffer_remove cap algo rand b
        = some (b.requests (select_index cap algo rand b), b1) ∧
      Inv cap b1 ∧ b1.count = b.count - 1 := by
  obtain ⟨requests, hs, -, -⟩ := shift_loop_spec hi (select_index_lt hi hne algo rand)
  have hr := buffer_remove_of_shift hne hs
  exact ⟨_, hr, inv_remove hi hr, rfl⟩

/-- Step lemma: unless the selected slot is the head of a full buffer of capacity
at least two, `buffer_remove` erases exactly the selected position from the
logical contents. -/
theorem buffer_remove_erases {cap : Nat} {b : request_buffer_t} (hi : Inv cap b)
    (hne : b.count ≠ 0) (algo : Int) (rand : Nat)
    (hgood : select_index cap algo rand b ≠ 0 ∨ b.count < cap ∨ cap = 1) :
    ∃ b1, buffer_remove cap algo rand b
        = some (b.requests (select_index cap algo rand b), b1) ∧
      Inv cap b1 ∧ b1.count = b.count - 1 ∧
      contents cap b1 = (contents cap b).eraseIdx (select_index cap algo rand b) := by
  have hidx := select_index_lt hi hne algo rand
  obtain ⟨requests, hs, hshift, -⟩ := shift_loop_spec hi hidx
  have hr := buffer_remove_of_shift hne hs
  have hi1 := inv_remove hi hr
  refine ⟨_, hr, hi1, rfl, ?_⟩
  rw [contents_eq_slots hi1, contents_eq_slots hi, eraseIdx_slots _ _ _ hidx]
  apply List.map_congr_left
  intro k hk
  exact hshift hgood k (List.mem_range.mp hk)

/-! ## What one `buffer_insert` does -/

/-- Step lemma: below capacity, `buffer_insert` appends the item to the logical
contents. -/
theorem buffer_insert_appends {cap : Nat} {b : request_buffer_t} (hi : Inv cap b)
    (hlt : b.count < cap) (fd : Int) (filename : String) (filesize : Int) :
    ∃ b1, buffer_insert cap b fd filename filesize = some b1 ∧ Inv cap b1 ∧
      contents cap b1 = contents cap b ++ [⟨fd, filename, filesize⟩] ∧
      b1.count = b.count + 1 := by
  have hne : b.count ≠ cap := by omega
  have hr := buffer_insert_of_ne hne fd filename filesize
  have hi1 := inv_insert hi hr
  have hend : b.end_ = b.count := by rw [hi.2.2, Nat.mod_eq_of_lt hlt]
  refine ⟨_, hr, hi1, ?_, rfl⟩
  rw [contents_eq_slots hi1, contents_eq_slots hi]
  show (List.range (b.count + 1)).map (store b.requests b.end_ ⟨fd, filename, filesize⟩)
    = (List.range b.count).map b.requests ++ [⟨fd, filename, filesize⟩]
  rw [List.range_succ, List.map_append, hend]
  congr 1
  · apply List.map_congr_left
    intro k hk
    have hk1 : k ≠ b.count := by
      have := List.mem_range.mp hk
      omega
    simp [store, hk1]
  · simp [store]

/-! ## Runs of several calls -/

/-- Submitting a list that fits: every call returns and the items are appended
in order. -/
theorem insert_all_appends {cap : Nat} :
    ∀ (items : List request_t) {b : request_buffer_t}, Inv cap b →
      b.count + items.length ≤ cap →
      ∃ b1, insert_all cap b items = some b1 ∧ Inv cap b1 ∧
        contents cap b1 = contents cap b ++ items ∧
        b1.count = b.count + items.length := by
  intro items
  induction items with
  | nil =>
    intro b hi _
    exact ⟨b, rfl, hi, by simp, rfl⟩
  | cons r rs ih =>
    intro b hi hfit
    simp only [List.length_cons] at hfit
    obtain ⟨b1, hr, hi1, hc1, hn1⟩ :=
      buffer_insert_appends hi (by omega) r.fd r.filename r.filesize
    obtain ⟨b2, hr2, hi2, hc2, hn2⟩ := ih hi1 (by omega)
    refine ⟨b2, ?_, hi2, ?_, ?_⟩
    · simp only [insert_all, hr]
      exact hr2
    · rw [hc2, hc1, List.append_assoc]
      rfl
    · rw [hn2, hn1, List.length_cons]
      omega

/-- An item and the list without it are the list, up to order. -/
theorem perm_cons_eraseIdx :
    ∀ (l : List request_t) (i : Nat) (x : request_t), l[i]? = some x →
      (x :: l.eraseIdx i).Perm l := by
  intro l
  induction l with
  | nil =>
    intro i x hx
    simp at hx
  | cons a t ih =>
    intro i x hx
    cases i with
    | zero =>
      simp only [List.getElem?_cons_zero, Option.some.injEq] at hx
      subst hx
      simp
    | succ i =>
      simp only [List.getElem?_cons_succ] at hx
      simp only [List.eraseIdx_cons_succ]
      exact (List.Perm.swap a x _).trans ((ih i x hx).cons a)

/-- The stable sort by `filesize` starts with the first item of minimal
`filesize` and continues with the stable sort of the others. -/
theorem insertionSort_first_min :
    ∀ (l : List request_t) (j : Nat) (x : request_t), l[j]? = some x →
      (∀ y, y ∈ l → x.filesize ≤ y.filesize) →
      (∀ k y, k < j → l[k]? = some y → x.filesize < y.filesize) →
      List.insertionSort (fun a c : request_t => a.filesize ≤ c.filesize) l
        = x :: List.insertionSort (fun a c : request_t => a.filesize ≤ c.filesize)
            (l.eraseIdx j) := by
  intro l
  induction l with
  | nil =>
    intro j x hx
    simp at hx
  | cons a t ih =>
    intro j x hx hmin hfirst
    cases j with
    | zero =>
      simp only [List.getElem?_cons_zero, Option.some.injEq] at hx
      subst hx
      rw [List.eraseIdx_zero, List.tail_cons]
      exact List.insertionSort_cons _ (fun y hy => hmin y (List.mem_cons_of_mem _ hy))
    | succ j =>
      simp only [List.getElem?_cons_succ] at hx
      have hlt : x.filesize < a.filesize := hfirst 0 a (by omega) (by simp)
      have ih1 := ih j x hx (fun y hy => hmin y (List.mem_cons_of_mem _ hy))
        (fun k y hk hy => hfirst (k + 1) y (by omega) (by simpa using hy))
      simp only [List.eraseIdx_cons_succ, List.insertionSort, ih1, List.orderedInsert,
        if_neg (not_le.mpr hlt)]

/-- The item in a queued slot, as an element of the logical contents. -/
theorem contents_getElem? {cap : Nat} {b : request_buffer_t} (hi : Inv cap b)
    {k : Nat} (hk : k < b.count) : (contents cap b)[k]? = some (b.requests k) := by
  rw [contents_eq_slots hi]
  simp [List.getElem?_map, List.getElem?_range, hk]


theorem reachable_insert_all {cap : Nat} :
    ∀ (items : List request_t) {b b1 : request_buffer_t},
      (∀ r, r ∈ items → r.filename.utf8ByteSize < MAXBUF) → Reachable cap b →
      insert_all cap b items = some b1 → Reachable cap b1 := by
  intro items
  induction items with
  | nil =>
    intro b b1 _ hb h
    simp only [insert_all, Option.some.injEq] at h
    exact h ▸ hb
  | cons r rs ih =>
    intro b b1 hfit hb h
    simp only [insert_all] at h
    split at h
    · simp at h
    · rename_i b2 hins
      exact ih (fun x hx => hfit x (List.mem_cons_of_mem _ hx))
        (Reachable.insert _ _ _ (hfit r (List.mem_cons_self _ _)) hb hins) h

theorem full3_run : insert_all 3 (buffer_init 3 heap0) [itemA, itemB, itemC] = some full3 :=
  rfl

theorem part3_run : insert_all 3 (buffer_init 3 heap0) [itemA, itemB] = some part3 :=
  rfl

theorem full3_reachable : Reachable 3 full3 :=
  reachable_insert_all _ (by decide) (Reachable.init heap0) full3_run

theorem part3_reachable : Reachable 3 part3 :=
  reachable_insert_all _ (by decide) (Reachable.init heap0) part3_run

/-- The slot the SFF scan selects, read on the logical contents: it holds the
first item of minimal `filesize`. -/
theorem sff_scan_contents {cap : Nat} {b : request_buffer_t} (hi : Inv cap b)
    (hne : b.count ≠ 0) :
    sff_scan cap b < b.count ∧
      (contents cap b)[sff_scan cap b]? = some (b.requests (sff_scan cap b)) ∧
      (∀ x, x ∈ contents cap b →
        (b.requests (sff_scan cap b)).filesize ≤ x.filesize) ∧
      (∀ k x, k < sff_scan cap b → (contents cap b)[k]? = some x →
        (b.requests (sff_scan cap b)).filesize < x.filesize) := by
  obtain ⟨hj, hmin, hfirst⟩ := sff_scan_spec hi hne
  refine ⟨hj, contents_getElem? hi hj, ?_, ?_⟩
  · intro x hx
    rw [contents_eq_slots hi, List.mem_map] at hx
    obtain ⟨k, hk, rfl⟩ := hx
    exact hmin k (List.mem_range.mp hk)
  · intro k x hk hx
    rw [contents_getElem? hi (by omega), Option.some.injEq] at hx
    rw [← hx]
    exact hfirst k hk

/-- Draining a buffer that is not full (or has capacity one), under any policy:
every take returns, the items returned are the logical contents up to order, and
the buffer ends empty. -/
theorem remove_all_perm {cap : Nat} (algo : Int) :
    ∀ (rands : List Nat) {b : request_buffer_t}, Inv cap b →
      (b.count < cap ∨ cap = 1) → rands.length = b.count →
      ∃ out b1, remove_all cap algo b rands = some (out, b1) ∧
        out.Perm (contents cap b) ∧ b1.count = 0 := by
  intro rands
  induction rands with
  | nil =>
    intro b hi _ hlen
    have hnil : contents cap b = [] :=
      List.eq_nil_of_length_eq_zero (by rw [contents_length]; exact hlen.symm)
    exact ⟨[], b, rfl, by rw [hnil], hlen.symm⟩
  | cons r rs ih =>
    intro b hi hsmall hlen
    simp only [List.length_cons] at hlen
    have hne : b.count ≠ 0 := by omega
    obtain ⟨b1, hr, hi1, hcnt, hc⟩ := buffer_remove_erases hi hne algo r (Or.inr hsmall)
    obtain ⟨out, b2, hr2, hperm, hz⟩ :=
      ih hi1 (by rcases hsmall with h | h <;> [(left; omega); (right; exact h)])
        (by omega)
    refine ⟨b.requests (select_index cap algo r b) :: out, b2,
      by simp only [remove_all, hr, hr2], ?_, hz⟩
    rw [hc] at hperm
    exact (hperm.cons _).trans
      (perm_cons_eraseIdx _ _ _ (contents_getElem? hi (select_index_lt hi hne algo r)))

/-- Draining a buffer that is not full (or has capacity one) under FIFO returns
the logical contents in order. -/
theorem remove_all_fifo {cap : Nat} :
    ∀ (rands : List Nat) {b : request_buffer_t}, Inv cap b →
      (b.count < cap ∨ cap = 1) → rands.length = b.count →
      ∃ b1, remove_all cap 0 b rands = some (contents cap b, b1) ∧ b1.count = 0 := by
  intro rands
  induction rands with
  | nil =>
    intro b hi _ hlen
    have hnil : contents cap b = [] :=
      List.eq_nil_of_length_eq_zero (by rw [contents_length]; exact hlen.symm)
    exact ⟨b, by rw [hnil]; rfl, hlen.symm⟩
  | cons r rs ih =>
    intro b hi hsmall hlen
    simp only [List.length_cons] at hlen
    have hne : b.count ≠ 0 := by omega
    obtain ⟨b1, hr, hi1, hcnt, hc⟩ := buffer_remove_erases hi hne 0 r (Or.inr hsmall)
    have hsel : select_index cap 0 r b = 0 := by simp [select_index, hi.1]
    rw [hsel] at hr hc
    obtain ⟨b2, hr2, hz⟩ :=
      ih hi1 (by rcases hsmall with h | h <;> [(left; omega); (right; exact h)])
        (by omega)
    refine ⟨b2, ?_, hz⟩
    have hhead := contents_getElem? hi (Nat.pos_of_ne_zero hne)
    have hsplit : contents cap b = b.requests 0 :: contents cap b1 := by
      rw [hc]
      cases hl : contents cap b with
      | nil => rw [hl] at hhead; simp at hhead
      | cons a t =>
        rw [hl] at hhead
        simp only [List.getElem?_cons_zero, Option.some.injEq] at hhead
        simp [hhead]
    simp only [remove_all, hr, hr2, hsplit]

/-- Draining a buffer that is not full (or has capacity one) under SFF returns
the stable sort of the logical contents by `filesize`. -/
theorem remove_all_sff {cap : Nat} :
    ∀ (rands : List Nat) {b : request_buffer_t}, Inv cap b →
      (b.count < cap ∨ cap = 1) → rands.length = b.count →
      ∃ b1, remove_all cap 1 b rands =
          some (List.insertionSort (fun a c : request_t => a.filesize ≤ c.filesize)
            (contents cap b), b1) ∧ b1.count = 0 := by
  intro rands
  induction rands with
  | nil =>
    intro b hi _ hlen
    have hnil : contents cap b = [] :=
      List.eq_nil_of_length_eq_zero (by rw [contents_length]; exact hlen.symm)
    exact ⟨b, by rw [hnil]; rfl, hlen.symm⟩
  | cons r rs ih =>
    intro b hi hsmall hlen
    simp only [List.length_cons] at hlen
    have hne : b.count ≠ 0 := by omega
    obtain ⟨b1, hr, hi1, hcnt, hc⟩ := buffer_remove_erases hi hne 1 r (Or.inr hsmall)
    have hsel : select_index cap 1 r b = sff_scan cap b := by simp [select_index]
    rw [hsel] at hr hc
    obtain ⟨b2, hr2, hz⟩ :=
      ih hi1 (by rcases hsmall with h | h <;> [(left; omega); (right; exact h)])
        (by omega)
    refine ⟨b2, ?_, hz⟩
    obtain ⟨-, hget, hmin, hfirst⟩ := sff_scan_contents hi hne
    rw [insertionSort_first_min _ _ _ hget hmin hfirst, ← hc]
    simp only [remove_all, hr, hr2]

/-- Below capacity the buffer neither loses nor duplicates: `N < max` items
submitted to a fresh buffer come back from `N` takes, each once, under any
policy and any values of `rand()`, and the buffer ends empty. -/
theorem drain_below_capacity_perm (cap : Nat) (algo : Int) (heap : Nat → request_t)
    (items : List request_t) (rands : List Nat) (hnames : ∀ r, r ∈ items → r.filename.utf8ByteSize < MAXBUF)
    (hfit : items.length ≤ cap)
    (hsmall : items.length < cap ∨ cap = 1) (hlen : rands.length = items.length) :
    ∃ out b1, submit_then_drain cap algo heap items rands = some (out, b1) ∧
      out.Perm items ∧ b1.count = 0 := by
  obtain ⟨b, hins, hi, hc, hn⟩ :=
    insert_all_appends items (inv_init cap heap)
      (by simpa [buffer_init] using hfit)
  have hn1 : b.count = items.length := by simpa [buffer_init] using hn
  have hc1 : contents cap b = items := by simpa [contents, buffer_init] using hc
  obtain ⟨out, b1, hr, hperm, hz⟩ :=
    remove_all_perm algo rands hi (by rw [hn1]; exact hsmall) (by rw [hn1]; exact hlen)
  refine ⟨out, b1, ?_, by rw [← hc1]; exact hperm, hz⟩
  simp only [submit_then_drain, hins, hr]

/-- Below capacity FIFO returns the items in submission order. -/
theorem fifo_drain_below_capacity (cap : Nat) (heap : Nat → request_t)
    (items : List request_t) (rands : List Nat) (hnames : ∀ r, r ∈ items → r.filename.utf8ByteSize < MAXBUF)
    (hfit : items.length ≤ cap)
    (hsmall : items.length < cap ∨ cap = 1) (hlen : rands.length = items.length) :
    ∃ b1, submit_then_drain cap 0 heap items rands = some (items, b1) ∧
      b1.count = 0 := by
  obtain ⟨b, hins, hi, hc, hn⟩ :=
    insert_all_appends items (inv_init cap heap)
      (by simpa [buffer_init] using hfit)
  have hn1 : b.count = items.length := by simpa [buffer_init] using hn
  have hc1 : contents cap b = items := by simpa [contents, buffer_init] using hc
  obtain ⟨b1, hr, hz⟩ :=
    remove_all_fifo rands hi (by rw [hn1]; exact hsmall) (by rw [hn1]; exact hlen)
  refine ⟨b1, ?_, hz⟩
  simp only [submit_then_drain, hins, hr, hc1]

/-- Below capacity SFF returns the stable sort of the submitted list by
`filesize`. -/
theorem sff_drain_below_capacity (cap : Nat) (heap : Nat → request_t)
    (items : List request_t) (rands : List Nat) (hnames : ∀ r, r ∈ items → r.filename.utf8ByteSize < MAXBUF)
    (hfit : items.length ≤ cap)
    (hsmall : items.length < cap ∨ cap = 1) (hlen : rands.length = items.length) :
    ∃ b1, submit_then_drain cap 1 heap items rands =
        some (List.insertionSort (fun a c : request_t => a.filesize ≤ c.filesize) items,
          b1) ∧
      b1.count = 0 := by
  obtain ⟨b, hins, hi, hc, hn⟩ :=
    insert_all_appends items (inv_init cap heap)
      (by simpa [buffer_init] using hfit)
  have hn1 : b.count = items.length := by simpa [buffer_init] using hn
  have hc1 : contents cap b = items := by simpa [contents, buffer_init] using hc
  obtain ⟨b1, hr, hz⟩ :=
    remove_all_sff rands hi (by rw [hn1]; exact hsmall) (by rw [hn1]; exact hlen)
  refine ⟨b1, ?_, hz⟩
  simp only [submit_then_drain, hins, hr, hc1]

/-- The defect in general: taking the head of a full buffer of capacity at least
two returns the head but leaves the slots as they are, so the logical contents
afterwards are the old ones without their last item, the returned head still
first. -/
theorem buffer_remove_full_head {cap : Nat} {b : request_buffer_t} (hi : Inv cap b)
    (hfull : b.count = cap) (hcap : 2 ≤ cap) (algo : Int) (rand : Nat)
    (hsel : select_index cap algo rand b = 0) :
    ∃ b1, buffer_remove cap algo rand b = some (b.requests 0, b1) ∧
      contents cap b1 = (contents cap b).dropLast ∧
      (contents cap b1)[0]? = some (b.requests 0) := by
  have hne : b.count ≠ 0 := by omega
  obtain ⟨requests, hs, -, hsame⟩ := shift_loop_spec hi (select_index_lt hi hne algo rand)
  have hreq : requests = b.requests := hsame hsel hfull
  subst hreq
  have hr := buffer_remove_of_shift hne hs
  have hi1 := inv_remove hi hr
  rw [hsel] at hr
  refine ⟨_, hr, ?_, ?_⟩
  · rw [contents_eq_slots hi1, contents_eq_slots hi]
    apply List.ext_getElem
    · simp
    · intro k h1 h2
      simp [List.getElem_dropLast]
  · rw [contents_getElem? hi1 (show 0 < b.count - 1 by omega)]

/-- The example of the specification: sizes `[50, 10, 30]` with capacity three
under SFF come back as `10, 30, 50`. -/
theorem sff_example_sizes :
    (submit_then_drain 3 1 heap0 [⟨1, "./a", 50⟩, ⟨2, "./b", 10⟩, ⟨3, "./c", 30⟩]
        [0, 0, 0]).map (fun out => out.1.map request_t.filesize) = some [10, 30, 50] := by
  decide

/-! ## The claims -/

/-- C3 (capacity invariant): in every state reachable from `buffer_init` by
`buffer_insert` and `buffer_remove` calls that get past their wait loops, under
any policy, `0 <= count <= buffer_max_size`; moreover the decrement of
`buffer_remove` is the integer one, so it never takes `count` below zero. -/
theorem capacity_invariant {cap : Nat} {b : request_buffer_t} (h : Reachable cap b) :
    0 ≤ (b.count : Int) ∧ (b.count : Int) ≤ (cap : Int) ∧
      ∀ (algo : Int) (rand : Nat) (req : request_t) (b1 : request_buffer_t),
        buffer_remove cap algo rand b = some (req, b1) →
          (b1.count : Int) = (b.count : Int) - 1 := by
  have hi := reachable_inv h
  refine ⟨Int.ofNat_nonneg _, by exact_mod_cast hi.2.1, ?_⟩
  intro algo rand req b1 hr
  obtain ⟨hne, -, -, -, -, hcnt⟩ := buffer_remove_some hr
  omega

theorem capacity_invariant_witness :
    Reachable 3 full3 ∧ (0 ≤ (full3.count : Int) ∧ (full3.count : Int) ≤ ((3 : Nat) : Int) ∧
      ∀ (algo : Int) (rand : Nat) (req : request_t) (b1 : request_buffer_t),
        buffer_remove 3 algo rand full3 = some (req, b1) →
          (b1.count : Int) = (full3.count : Int) - 1) :=
  ⟨full3_reachable, capacity_invariant full3_reachable⟩

/-- C4 (order preservation of survivors): in every reachable state, a full
buffer included, a `buffer_remove` whose selected slot is at logical index `i`
with `0 < i < count` returns the item at that position and leaves as logical
contents the previous ones with position `i` erased. -/
theorem survivors_keep_order {cap : Nat} {b : request_buffer_t} (h : Reachable cap b)
    (algo : Int) (rand : Nat) (i : Nat) (hpos : 0 < i) (hlt : i < b.count)
    (hsel : select_index cap algo rand b = (b.start + i) % cap) :
    ∃ req b1, buffer_remove cap algo rand b = some (req, b1) ∧
      (contents cap b)[i]? = some req ∧
      contents cap b1 = (contents cap b).eraseIdx i := by
  have hi := reachable_inv h
  have hne : b.count ≠ 0 := by omega
  have hmod : (b.start + i) % cap = i := by
    rw [hi.1, Nat.zero_add]
    exact Nat.mod_eq_of_lt (lt_of_lt_of_le hlt hi.2.1)
  rw [hmod] at hsel
  obtain ⟨b1, hr, -, -, hc⟩ :=
    buffer_remove_erases hi hne algo rand (Or.inl (by omega))
  rw [hsel] at hr hc
  refine ⟨_, b1, hr, ?_, hc⟩
  rw [contents_eq_slots hi]
  simp [List.getElem?_map, List.getElem?_range, hlt]

theorem survivors_keep_order_witness :
    Reachable 3 full3 ∧ 0 < 1 ∧ 1 < full3.count ∧
      select_index 3 2 1 full3 = (full3.start + 1) % 3 ∧
      ∃ req b1, buffer_remove 3 2 1 full3 = some (req, b1) ∧
        (contents 3 full3)[1]? = some req ∧
        contents 3 b1 = (contents 3 full3).eraseIdx 1 :=
  ⟨full3_reachable, by decide, by decide, by decide,
    survivors_keep_order full3_reachable 2 1 1 (by decide) (by decide) (by decide)⟩

/-- C5 (SFF selection): with `scheduling_algo == 1`, in every reachable non-empty
state `buffer_remove` returns the item at the smallest logical index `j` whose
`filesize` is minimal: no queued item is smaller, and every item before `j` is
strictly larger. -/
theorem sff_returns_first_minimum {cap : Nat} {b : request_buffer_t}
    (h : Reachable cap b) (hne : b.count ≠ 0) (rand : Nat) :
    ∃ req b1 j, buffer_remove cap 1 rand b = some (req, b1) ∧ j < b.count ∧
      (contents cap b)[j]? = some req ∧
      (∀ x, x ∈ contents cap b → req.filesize ≤ x.filesize) ∧
      (∀ k x, k < j → (contents cap b)[k]? = some x → req.filesize < x.filesize) := by
  have hi := reachable_inv h
  obtain ⟨b1, hr, -, -⟩ := buffer_remove_returns hi hne 1 rand
  have hsel : select_index cap 1 rand b = sff_scan cap b := by simp [select_index]
  obtain ⟨hj, hget, hmin, hfirst⟩ := sff_scan_contents hi hne
  rw [hsel] at hr
  exact ⟨_, b1, sff_scan cap b, hr, hj, hget, hmin, hfirst⟩

theorem sff_returns_first_minimum_witness :
    Reachable 3 full3 ∧ full3.count ≠ 0 ∧
      ∃ req b1 j, buffer_remove 3 1 0 full3 = some (req, b1) ∧ j < full3.count ∧
        (contents 3 full3)[j]? = some req ∧
        (∀ x, x ∈ contents 3 full3 → req.filesize ≤ x.filesize) ∧
        (∀ k x, k < j → (contents 3 full3)[k]? = some x → req.filesize < x.filesize) :=
  ⟨full3_reachable, by decide, sff_returns_first_minimum full3_reachable (by decide) 0⟩

/-- C7 (submit appends at the tail): in every reachable state with
`count < buffer_max_size` and for every item (a name that fits the `filename`
array), `buffer_insert` returns, the logical contents become the previous ones
followed by exactly the new item, and `count` grows by one. -/
theorem insert_appends_at_tail {cap : Nat} {b : request_buffer_t} (h : Reachable cap b)
    (hlt : b.count < cap) (fd : Int) (filename : String) (filesize : Int)
    (hfit : filename.utf8ByteSize < MAXBUF) :
    ∃ b1, buffer_insert cap b fd filename filesize = some b1 ∧
      contents cap b1 = contents cap b ++ [⟨fd, filename, filesize⟩] ∧
      b1.count = b.count + 1 := by
  obtain ⟨b1, hr, -, hc, hcnt⟩ :=
    buffer_insert_appends (reachable_inv h) hlt fd filename filesize
  exact ⟨b1, hr, hc, hcnt⟩

theorem insert_appends_at_tail_witness :
    Reachable 3 part3 ∧ part3.count < 3 ∧ "./c.html".utf8ByteSize < MAXBUF ∧
      ∃ b1, buffer_insert 3 part3 5 "./c.html" 30 = some b1 ∧
        contents 3 b1 = contents 3 part3 ++ [⟨5, "./c.html", 30⟩] ∧
        b1.count = part3.count + 1 :=
  ⟨part3_reachable, by decide, by decide,
    insert_appends_at_tail part3_reachable (by decide) 5 "./c.html" 30 (by decide)⟩

/-- C8 (random selection): with `scheduling_algo == 2`, in every reachable
non-empty state and for every value `r` of `rand()`, the modulus `count` is not
zero, the selected slot is `(start + r % count) % max`, the logical index
`r % count` lies in `[0, count)`, the slot lies in `[0, max)`, the request
returned is the one at logical index `r % count`, and the selected slot is the
same whatever items the slots hold. -/
theorem random_index_in_range {cap : Nat} {b : request_buffer_t} (h : Reachable cap b)
    (hne : b.count ≠ 0) (r : Nat) :
    b.count ≠ 0 ∧
      select_index cap 2 r b = (b.start + r % b.count) % cap ∧
      r % b.count < b.count ∧
      (b.start + r % b.count) % cap < cap ∧
      (∃ req b1, buffer_remove cap 2 r b = some (req, b1) ∧
        (contents cap b)[r % b.count]? = some req) ∧
      ∀ requests1 : Nat → request_t,
        select_index cap 2 r { b with requests := requests1 } = select_index cap 2 r b := by
  have hi := reachable_inv h
  have hlt : r % b.count < b.count := Nat.mod_lt _ (Nat.pos_of_ne_zero hne)
  have hsel : select_index cap 2 r b = (b.start + r % b.count) % cap := by
    simp [select_index]
  have hidx := random_index_eq hi hne r
  refine ⟨hne, hsel, hlt, ?_, ?_, ?_⟩
  · rw [hidx]
    exact lt_of_lt_of_le hlt hi.2.1
  · obtain ⟨b1, hr, -, -⟩ := buffer_remove_returns hi hne 2 r
    rw [hsel, hidx] at hr
    refine ⟨_, b1, hr, ?_⟩
    rw [contents_eq_slots hi]
    simp [List.getElem?_map, List.getElem?_range, hlt]
  · intro requests1
    simp [select_index]

theorem random_index_in_range_witness :
    Reachable 3 full3 ∧ full3.count ≠ 0 ∧
      (full3.count ≠ 0 ∧
        select_index 3 2 7 full3 = (full3.start + 7 % full3.count) % 3 ∧
        7 % full3.count < full3.count ∧
        (full3.start + 7 % full3.count) % 3 < 3 ∧
        (∃ req b1, buffer_remove 3 2 7 full3 = some (req, b1) ∧
          (contents 3 full3)[7 % full3.count]? = some req) ∧
        ∀ requests1 : Nat → request_t,
          select_index 3 2 7 { full3 with requests := requests1 }
            = select_index 3 2 7 full3) :=
  ⟨full3_reachable, by decide, random_index_in_range full3_reachable (by decide) 7⟩

/-- C9, as stated, fails: a `buffer_insert` call with `filesize == -1` on a
fresh buffer of capacity two is not rejected; it returns with the item queued
and `count` changed from `0` to `1`. -/
theorem negative_filesize_is_enqueued :
    ∃ b1, buffer_insert 2 (buffer_init 2 heap0) 7 "./x.html" (-1) = some b1 ∧
      b1.count ≠ (buffer_init 2 heap0).count ∧
      contents 2 (buffer_init 2 heap0) = [] ∧
      contents 2 b1 = [⟨7, "./x.html", -1⟩] :=
  ⟨_, rfl, by decide, by decide, by decide⟩

/-- C9, amended: `buffer_insert` has no rejection path for a negative
`filesize`.  For every state, every `fd`, every `filename` that fits the array
and every `filesize`, a negative one included: when `count` equals
`buffer_max_size` the call does not return (it stays in the wait loop); when
`count` differs from `buffer_max_size` the call returns with the item written to
slot `end`, `end` advanced by one modulo the capacity, `count` increased by one
and `start` and all other slots untouched; and a call that returns never leaves
`count`, hence the state, unchanged. -/
theorem insert_accepts_every_item (cap : Nat) (b : request_buffer_t) (fd : Int)
    (filename : String) (filesize : Int) (hfit : filename.utf8ByteSize < MAXBUF) :
    (b.count = cap → buffer_insert cap b fd filename filesize = none) ∧
      (b.count ≠ cap →
        ∃ b1, buffer_insert cap b fd filename filesize = some b1 ∧
          b1.requests b.end_ = ⟨fd, filename, filesize⟩ ∧
          (∀ j, j ≠ b.end_ → b1.requests j = b.requests j) ∧
          b1.start = b.start ∧ b1.end_ = (b.end_ + 1) % cap ∧
          b1.count = b.count + 1) ∧
      (∀ b1, buffer_insert cap b fd filename filesize = some b1 →
        b1.count = b.count + 1 ∧ b1.count ≠ b.count ∧
          contents cap b1 ≠ contents cap b) := by
  refine ⟨?_, ?_, ?_⟩
  · intro hfull
    unfold buffer_insert
    rw [if_pos hfull]
  · intro hne
    refine ⟨_, buffer_insert_of_ne hne fd filename filesize, ?_, ?_, rfl, rfl, rfl⟩
    · simp [store]
    · intro j hj
      simp [store, hj]
  · intro b1 hr
    obtain ⟨-, rfl⟩ := buffer_insert_some hr
    refine ⟨rfl, ?_, ?_⟩
    · show b.count + 1 ≠ b.count
      omega
    · intro hc
      have hlen := congrArg List.length hc
      rw [contents_length, contents_length] at hlen
      have hlen1 : b.count + 1 = b.count := hlen
      omega

theorem insert_accepts_every_item_witness :
    "./neg.html".utf8ByteSize < MAXBUF ∧ (-5 : Int) < 0 ∧
      (part3.count ≠ 3 ∧
        ∃ b1, buffer_insert 3 part3 9 "./neg.html" (-5) = some b1 ∧
          b1.requests part3.end_ = ⟨9, "./neg.html", -5⟩ ∧
          (∀ j, j ≠ part3.end_ → b1.requests j = part3.requests j) ∧
          b1.start = part3.start ∧ b1.end_ = (part3.end_ + 1) % 3 ∧
          b1.count = part3.count + 1) ∧
      (full3.count = 3 ∧ buffer_insert 3 full3 9 "./neg.html" (-5) = none) ∧
      (∀ b1, buffer_insert 3 part3 9 "./neg.html" (-5) = some b1 →
        b1.count = part3.count + 1 ∧ b1.count ≠ part3.count ∧
          contents 3 b1 ≠ contents 3 part3) :=
  ⟨by decide, by decide,
    ⟨by decide,
      (insert_accepts_every_item 3 part3 9 "./neg.html" (-5) (by decide)).2.1 (by decide)⟩,
    ⟨by decide,
      (insert_accepts_every_item 3 full3 9 "./neg.html" (-5) (by decide)).1 (by decide)⟩,
    (insert_accepts_every_item 3 part3 9 "./neg.html" (-5) (by decide)).2.2⟩

/-! ## Taking the head of a full buffer

When the buffer is full, `end == start`, so for the head slot the shifting loop
`for (i = index; i != buffer.end; ...)` does not run at all: the head stays in
place while `end` and `count` step back, which drops the last item instead. -/

/-- C1 at a failing input: capacity two, `itemA` and `itemB` submitted, two takes.
Under each of the three policies (with `rand()` returning `0` twice) the takes
return `itemA` twice and never `itemB`, although `count` ends at `0`. -/
theorem full_buffer_take_duplicates_head :
    (∀ algo : Int, algo ∈ [0, 1, 2] →
      (submit_then_drain 2 algo heap0 [itemA, itemB] [0, 0]).map
          (fun out => (out.1, out.2.count)) = some ([itemA, itemA], 0)) ∧
      ¬ List.Perm [itemA, itemA] [itemA, itemB] := by
  refine ⟨by decide, ?_⟩
  intro hp
  have := hp.count_eq itemB
  revert this
  decide

/-- C2 at a failing input: capacity two, FIFO, `itemA` then `itemB` submitted; the
two takes return `itemA`, `itemA` and not `itemA`, `itemB`. -/
theorem fifo_full_buffer_repeats_head :
    (submit_then_drain 2 0 heap0 [itemA, itemB] [0, 0]).map Prod.fst
        = some [itemA, itemA] ∧
      [itemA, itemA] ≠ [itemA, itemB] := by
  decide

/-- C6 at a failing input: capacity three, SFF, sizes `[10, 50, 30]` submitted in
that order; the three takes return sizes `10, 10, 50`, while the stable sort of
the submitted list by `filesize` is `10, 30, 50`. -/
theorem sff_full_buffer_repeats_head :
    (submit_then_drain 3 1 heap0 [⟨1, "./a", 10⟩, ⟨2, "./b", 50⟩, ⟨3, "./c", 30⟩]
        [0, 0, 0]).map Prod.fst
        = some [⟨1, "./a", 10⟩, ⟨1, "./a", 10⟩, ⟨2, "./b", 50⟩] ∧
      List.insertionSort (fun x y : request_t => x.filesize ≤ y.filesize)
          [⟨1, "./a", 10⟩, ⟨2, "./b", 50⟩, ⟨3, "./c", 30⟩]
        = [⟨1, "./a", 10⟩, ⟨3, "./c", 30⟩, ⟨2, "./b", 50⟩] := by
  decide

end Request
